import Mathlib

/-!
Verification development for the `btn` local-cache library.

We shallowly embed the database-facing operations of `btn/__init__.py` and
`btn/scrape.py`: rows of the SQLite tables become Lean structures, tables
become lists of rows, and each routine that reads and writes the database
becomes a pure function from the old state to the new state.  Machine
integers are modelled as `Int` (SQLite integers are signed 64-bit but no
operation here can overflow), raw byte strings as `List Nat`, and wall-clock
times (Python floats) as `ℚ`.
-/

namespace Btn

/-! ## Data model: rows of the `torrent_entry`, `torrent_entry_group` and
`series` tables (see `_create_schema` in `btn/__init__.py`). -/

/-- A row of the `torrent_entry` table.  `info_hash` is nullable in the
schema, every other column is `not null`. -/
structure TERow where
  id : Int
  codec : String
  container : String
  group_id : Int
  info_hash : Option String
  origin : String
  release_name : String
  resolution : String
  size : Int
  source : String
  time : Int
  snatched : Int
  seeders : Int
  leechers : Int
  raw_torrent_cached : Bool
  updated_at : Int
  deleted : Bool
  deriving DecidableEq, Repr

/-- A row of the `torrent_entry_group` table. -/
structure GRow where
  id : Int
  category : String
  name : String
  series_id : Int
  updated_at : Int
  deleted : Bool
  deriving DecidableEq, Repr

/-- A row of the `series` table. -/
structure SRow where
  id : Int
  imdb_id : Option String
  name : Option String
  banner : Option String
  poster : Option String
  tvdb_id : Option Int
  tvrage_id : Option Int
  youtube_trailer : Option String
  updated_at : Int
  deleted : Bool
  deriving DecidableEq, Repr

/-! ## `TorrentEntry.serialize` (btn/__init__.py lines 705-795), restricted to
its effect on the `torrent_entry` row with the entry's id.

The Python routine issues, in order:
1. `insert or ignore` of all columns (with `updated_at = changestamp`,
   `deleted = 0`);
2. if the insert changed nothing, an `update` of every column except `id`,
   guarded by `where id = :id and (c1 is not :c1 or c2 is not :c2 or ...)`
   over the "important" (non-counter) columns `codec, container, deleted,
   group_id, info_hash, origin, raw_torrent_cached, release_name, resolution,
   size, source, time`;
3. if that update changed nothing, an unconditional `update` of only the
   counters `snatched, seeders, leechers`.
-/

/-- The field values a `TorrentEntry` Python object supplies to
`serialize` (the counters plus the "important" params; `deleted` is always
written as `0` and is compared as an important column). -/
structure TEFields where
  codec : String
  container : String
  group_id : Int
  info_hash : Option String
  origin : String
  release_name : String
  resolution : String
  size : Int
  source : String
  time : Int
  raw_torrent_cached : Bool
  snatched : Int
  seeders : Int
  leechers : Int
  deriving DecidableEq, Repr

/-- The `where ... is not ...` disjunction of step 2 of
`TorrentEntry.serialize`: true iff some important (non-counter) column of the
stored row differs from the value being written (`deleted` is written as 0). -/
def importantDiffers (te : TEFields) (r : TERow) : Bool :=
  decide (te.codec ≠ r.codec) || decide (te.container ≠ r.container) ||
  decide (r.deleted ≠ false) || decide (te.group_id ≠ r.group_id) ||
  decide (te.info_hash ≠ r.info_hash) || decide (te.origin ≠ r.origin) ||
  decide (te.raw_torrent_cached ≠ r.raw_torrent_cached) ||
  decide (te.release_name ≠ r.release_name) ||
  decide (te.resolution ≠ r.resolution) || decide (te.size ≠ r.size) ||
  decide (te.source ≠ r.source) || decide (te.time ≠ r.time)

/-- The `torrent_entry`-row effect of `TorrentEntry.serialize`: given the
stored row with the entry's id (`none` if absent), produce the stored row
after the three statements above have run. -/
def serializeTE (te : TEFields) (id changestamp : Int) (row : Option TERow) :
    TERow :=
  match row with
  | none =>
      -- step 1: `insert or ignore` succeeds
      { id := id, codec := te.codec, container := te.container,
        group_id := te.group_id, info_hash := te.info_hash,
        origin := te.origin, release_name := te.release_name,
        resolution := te.resolution, size := te.size, source := te.source,
        time := te.time, snatched := te.snatched, seeders := te.seeders,
        leechers := te.leechers,
        raw_torrent_cached := te.raw_torrent_cached,
        updated_at := changestamp, deleted := false }
  | some r =>
      if importantDiffers te r then
        -- step 2: full update of every column except `id`
        { id := r.id, codec := te.codec, container := te.container,
          group_id := te.group_id, info_hash := te.info_hash,
          origin := te.origin, release_name := te.release_name,
          resolution := te.resolution, size := te.size, source := te.source,
          time := te.time, snatched := te.snatched, seeders := te.seeders,
          leechers := te.leechers,
          raw_torrent_cached := te.raw_torrent_cached,
          updated_at := changestamp, deleted := false }
      else
        -- step 3: counters only
        { r with snatched := te.snatched, seeders := te.seeders,
                 leechers := te.leechers }

/-- The row a `TEFields` value describes, at a given id, stamp and deletion
flag; used to phrase "the stored row's fields are identical to the supplied
values". -/
def rowOf (te : TEFields) (id stamp : Int) : TERow :=
  { id := id, codec := te.codec, container := te.container,
    group_id := te.group_id, info_hash := te.info_hash, origin := te.origin,
    release_name := te.release_name, resolution := te.resolution,
    size := te.size, source := te.source, time := te.time,
    snatched := te.snatched, seeders := te.seeders, leechers := te.leechers,
    raw_torrent_cached := te.raw_torrent_cached, updated_at := stamp,
    deleted := false }

/-- The non-counter (important) part of a `TEFields` value agrees with the
stored row, and the row is live (`deleted = 0`, the value `serialize` always
writes). -/
def importantAgrees (te : TEFields) (r : TERow) : Prop :=
  te.codec = r.codec ∧ te.container = r.container ∧ r.deleted = false ∧
  te.group_id = r.group_id ∧ te.info_hash = r.info_hash ∧
  te.origin = r.origin ∧ te.raw_torrent_cached = r.raw_torrent_cached ∧
  te.release_name = r.release_name ∧ te.resolution = r.resolution ∧
  te.size = r.size ∧ te.source = r.source ∧ te.time = r.time

instance decImportantAgrees (te : TEFields) (r : TERow) :
    Decidable (importantAgrees te r) := by
  unfold importantAgrees
  infer_instance

/-! ## `API.get_changestamp` (btn/__init__.py lines 1735-1757).

The persisted counter is the `changestamp` row of the `user.global` KV
table; we model its state as `Option Int` (`none` = no row).  The routine
performs `insert or ignore ... values ("changestamp", 0)`, reads the value
(`int(... or 0)`, which is the stored value, or `0` when the row was just
created), adds one, writes the sum back, and returns it. -/

/-- One call to `API.get_changestamp`: returns the new changestamp and the
new persisted state of the `changestamp` KV row. -/
def get_changestamp (s : Option Int) : Int × Option Int :=
  let afterInsert : Option Int :=
    match s with
    | none => some 0      -- `insert or ignore` creates the row with value 0
    | some v => some v    -- row exists: insert ignored
  let c : Int :=
    match afterInsert with
    | none => 0
    | some v => v
  (c + 1, some (c + 1))

/-- Persisted counter state after `n` calls to `get_changestamp`, starting
from `s`. -/
def changestampState (s : Option Int) : Nat → Option Int
  | 0 => s
  | n + 1 => (get_changestamp (changestampState s n)).2

/-- Return value of the `(n+1)`-st call to `get_changestamp`, starting from
state `s`. -/
def changestampRet (s : Option Int) (n : Nat) : Int :=
  (get_changestamp (changestampState s n)).1

/-! ## `MetadataScraper.update_step` cursor arithmetic
(btn/scrape.py lines 102-108).

```
offset = get_int(self.api, self.KEY_OFFSET) or 0
results = get_int(self.api, self.KEY_RESULTS)
next_offset = offset + self.BLOCK_SIZE - 1
if results and next_offset > results:
    next_offset = 0
set_int(self.api, self.KEY_OFFSET, next_offset)
```
`get_int` yields `none` when the KV row is absent or unparseable; `x or 0`
maps both `none` and `0` to `0`. -/

def BLOCK_SIZE : Int := 1000

/-- The Python truthiness coercion `get_int(...) or 0`. -/
def orZero (s : Option Int) : Int :=
  match s with
  | none => 0
  | some v => v

/-- The new value written to the `scrape_next_offset` KV row by one
`MetadataScraper.update_step`, from the stored offset and the stored
`scrape_last_results`. -/
def nextScrapeOffset (offset results : Option Int) : Int :=
  let o := orZero offset
  let next := o + BLOCK_SIZE - 1
  match results with
  | none => next
  | some r => if r ≠ 0 ∧ next > r then 0 else next

/-! ## `apply_contiguous_results_locked` (btn/scrape.py lines 30-55).

```
ids = sorted((te.id for te in sr.torrents), key=lambda i: -i)
is_end = offset + len(ids) >= sr.results
if ids:
    if is_end:
        update torrent_entry set deleted = 1, updated_at = ?
          where id < ids[-1] and not deleted
    update torrent_entry set deleted = 1, updated_at = ?
      where not deleted and id < ids[0] and id > ids[-1]
        and id not in ids
```
The function touches only the `torrent_entry` table; we model each SQL
`update` as a map over the list of rows. -/

/-- Insert into a descending-sorted list (the comparator of
`sorted(..., key=lambda i: -i)`). -/
def insertDesc (x : Int) : List Int → List Int
  | [] => [x]
  | y :: ys => if x ≥ y then x :: y :: ys else y :: insertDesc x ys

/-- `sorted(ids, key=lambda i: -i)`: sort a list of ids descending. -/
def sortDesc (l : List Int) : List Int := l.foldr insertDesc []

/-- One SQL `update torrent_entry set deleted = 1, updated_at = cs where
<p id> and not deleted`, applied to a single row. -/
def markDeleted (cs : Int) (p : Int → Bool) (r : TERow) : TERow :=
  if ¬r.deleted ∧ p r.id then { r with deleted := true, updated_at := cs }
  else r

/-- The `torrent_entry`-table effect of `apply_contiguous_results_locked`:
`torrentIds` are the ids of `sr.torrents`, `results` is `sr.results`, `cs`
the changestamp used for the deletions. -/
def apply_contiguous_results_locked (db : List TERow) (offset : Int)
    (torrentIds : List Int) (results : Int) (cs : Int) : List TERow :=
  let ids := sortDesc torrentIds
  let is_end : Bool := offset + (ids.length : Int) ≥ results
  match ids with
  | [] => db
  | i0 :: rest =>
      let ik := (i0 :: rest).getLast (by simp)
      let db1 :=
        if is_end then db.map (markDeleted cs (fun id => id < ik)) else db
      db1.map (markDeleted cs
        (fun id => id < i0 ∧ id > ik ∧ id ∉ (i0 :: rest)))

/-- The three cached tables reconciliation can see. -/
structure DBState where
  torrents : List TERow
  groups : List GRow
  series : List SRow
  deriving DecidableEq, Repr

/-- `apply_contiguous_results_locked` on the full database state: the
function issues updates against `torrent_entry` only. -/
def applyContiguousFull (st : DBState) (offset : Int) (torrentIds : List Int)
    (results : Int) (cs : Int) : DBState :=
  { st with torrents :=
      (apply_contiguous_results_locked st.torrents offset torrentIds results
        cs) }

/-! ## `Group._maybe_delete` / `Series._maybe_delete`
(btn/__init__.py lines 154-189 and 334-395).

`Group._maybe_delete(api, *ids, changestamp)` selects the groups among `ids`
that are not deleted and have no non-deleted torrent entry, marks them
`deleted = 1, updated_at = changestamp`, and then calls
`Series._maybe_delete` on their series ids (against the updated group
table).  If no group qualifies it returns without touching the series. -/

/-- `series.id ∈ ids and not deleted and not exists (select ... from
torrent_entry_group where series_id = series.id and not deleted)`. -/
def seriesQualifies (groups : List GRow) (ids : List Int) (s : SRow) : Bool :=
  decide (s.id ∈ ids) && !s.deleted &&
  !(groups.any (fun g => g.series_id == s.id && !g.deleted))

/-- `Series._maybe_delete`: mark qualifying series deleted. -/
def seriesMaybeDelete (st : DBState) (ids : List Int) (cs : Int) : DBState :=
  let toDelete := (st.series.filter (seriesQualifies st.groups ids)).map
    (fun s => s.id)
  if toDelete.isEmpty then st
  else
    { st with series := st.series.map (fun s =>
        if s.id ∈ toDelete then { s with deleted := true, updated_at := cs }
        else s) }

/-- `torrent_entry_group.id ∈ ids and not deleted and not exists (select ...
from torrent_entry where group_id = torrent_entry_group.id and not
deleted)`. -/
def groupQualifies (torrents : List TERow) (ids : List Int) (g : GRow) :
    Bool :=
  decide (g.id ∈ ids) && !g.deleted &&
  !(torrents.any (fun te => te.group_id == g.id && !te.deleted))

/-- `Group._maybe_delete`: mark qualifying groups deleted, then cascade to
their series. -/
def groupMaybeDelete (st : DBState) (ids : List Int) (cs : Int) : DBState :=
  let qualifying := st.groups.filter (groupQualifies st.torrents ids)
  let groupIdsToDelete := qualifying.map (fun g => g.id)
  let seriesIdsToCheck := qualifying.map (fun g => g.series_id)
  if groupIdsToDelete.isEmpty then st
  else
    let st1 := { st with groups := st.groups.map (fun g =>
        if g.id ∈ groupIdsToDelete then
          { g with deleted := true, updated_at := cs }
        else g) }
    seriesMaybeDelete st1 seriesIdsToCheck cs

/-- The claimed cascade invariant (spec §3): every non-deleted group has a
non-deleted torrent entry referencing it, and every non-deleted series has a
non-deleted group referencing it. -/
def cascadeInvariant (st : DBState) : Prop :=
  (∀ g ∈ st.groups, g.deleted = false →
    ∃ te ∈ st.torrents, te.group_id = g.id ∧ te.deleted = false) ∧
  (∀ s ∈ st.series, s.deleted = false →
    ∃ g ∈ st.groups, g.series_id = s.id ∧ g.deleted = false)

instance decCascadeInvariant (st : DBState) :
    Decidable (cascadeInvariant st) := by
  unfold cascadeInvariant
  infer_instance

/-! ## Metafile codec: `FileInfo._from_tobj` (btn/__init__.py lines
515-541).

A deserialized metafile's `info` dictionary is modelled by `MInfo`: `name`
and paths are raw byte strings (`List Nat`), `files` is present exactly in
multi-file mode, `length` is the `info.length` value used in single-file
mode. -/

/-- One entry of `info.files`. -/
structure MFile where
  length : Int
  path : List (List Nat)
  deriving DecidableEq, Repr

/-- The `info` dictionary of a metafile. -/
structure MInfo where
  name : List Nat
  files : Option (List MFile)
  length : Int
  deriving DecidableEq, Repr

/-- A `FileInfo` record: `(index, path, start, stop)`. -/
structure FileInfoRec where
  index : Nat
  path : List Nat
  start : Int
  stop : Int
  deriving DecidableEq, Repr

/-- `b"/".join(path_parts)`: join byte strings with the `/` byte (47). -/
def joinBytes (parts : List (List Nat)) : List Nat :=
  List.intercalate [47] parts

/-- The multi-file loop of `_from_tobj`: `off` is the running `offset`,
`idx` the running `enumerate` index. -/
def filesFrom (name : List Nat) (off : Int) (idx : Nat) :
    List MFile → List FileInfoRec
  | [] => []
  | f :: fs =>
      { index := idx, path := joinBytes (name :: f.path), start := off,
        stop := off + f.length } :: filesFrom name (off + f.length) (idx + 1) fs

/-- `FileInfo._from_tobj` on the `info` dictionary: single-file mode when
`b"files"` is absent, multi-file mode otherwise. -/
def fromTobj (ti : MInfo) : List FileInfoRec :=
  match ti.files with
  | some fs => filesFrom ti.name 0 0 fs
  | none => [{ index := 0, path := ti.name, start := 0, stop := ti.length }]

/-- The records contiguously cover the half-open byte range `[a, b)`:
each record starts where the previous one stopped, beginning at `a` and
ending at `b`. -/
def coversRange (a b : Int) : List FileInfoRec → Prop
  | [] => a = b
  | f :: fs => f.start = a ∧ coversRange f.stop b fs

instance : ∀ a b l, Decidable (coversRange a b l) := fun a b l => by
  induction l generalizing a b with
  | nil => exact inferInstanceAs (Decidable (a = b))
  | cons f fs ih =>
      exact match ih f.stop b with
      | isTrue h =>
          if h2 : f.start = a then isTrue ⟨h2, h⟩
          else isFalse (fun hc => h2 hc.1)
      | isFalse h =>
          isFalse (fun hc => h hc.2)

/-- Sum of the `length` fields of the first `i` entries of `fs`. -/
def sumLengths (fs : List MFile) : Int := (fs.map (fun f => f.length)).sum

/-! ## `API.call_api` error handling (btn/__init__.py lines 1651-1683).

When the parsed JSON-RPC response carries an `error` object, `call_api`
always raises `APIError(message, code)`, and exactly when
`code == APIError.CODE_CALL_LIMIT_EXCEEDED` it first rewrites the
time-series bucket with `api_token_bucket.set(0, query_time=call_time,
fill=fill)`, where

```
def fill(_, query_time, n):
    period = self.api_token_bucket.period
    start = query_time - period
    return [start + period * (i + 1) / (n + 1) for i in range(n)]
```

Wall-clock times (Python floats) are modelled as exact rationals. -/

def CODE_CALL_LIMIT_EXCEEDED : Int := -32002

/-- The `fill` closure passed to `api_token_bucket.set`: `n` synthetic
timestamps in `[query_time - period, query_time]`.  The first argument (the
level) is ignored by the source. -/
def fill (period : ℚ) (_level : Int) (query_time : ℚ) (n : Nat) : List ℚ :=
  (List.range n).map
    (fun i : Nat =>
      (query_time - period) + period * ((i : ℚ) + 1) / ((n : ℚ) + 1))

/-- What `call_api` does upon receiving a JSON-RPC `error` object:
`bucketSet` is the `(level, query_time)` argument pair of the
`api_token_bucket.set` call when one is issued (the `fill` argument is the
closure above), and `raised` is the `(message, code)` of the `APIError` it
then raises. -/
structure ErrorOutcome where
  bucketSet : Option (Int × ℚ)
  raised : String × Int
  deriving DecidableEq

/-- The error branch of `call_api` (lines 1668-1681). -/
def callApiOnError (message : String) (code : Int) (call_time : ℚ) :
    ErrorOutcome :=
  { bucketSet :=
      if code = CODE_CALL_LIMIT_EXCEEDED then some (0, call_time) else none,
    raised := (message, code) }

/-! ## `MetadataTipScraper.update_scrape_results_locked`
(btn/scrape.py lines 200-239).

The KV state of a tip-scrape session: `tip_last_scraped`,
`tip_scrape_offset`, `tip_scrape_oldest`, `tip_scrape_newest`.  The routine
receives the page `offset` it passed to `getTorrents` and the `ids`/`is_end`
returned by `apply_contiguous_results_locked`.  We model it as a partial
function: `none` means the Python code would raise `IndexError` (`ids[0]` or
`ids[-1]` on an empty page). -/

structure TipKV where
  last : Option Int
  offset : Option Int
  oldest : Option Int
  newest : Option Int
  deriving DecidableEq, Repr

/-- `update_scrape_results_locked`, given the page `offset`, the descending
id list `ids` and `is_end` from `apply_contiguous_results_locked`, and the
stored KV state.  Returns `(done, new KV state)`. -/
def update_scrape_results_locked (offset : Int) (ids : List Int)
    (is_end : Bool) (kv : TipKV) : Option (Bool × TipKV) := do
  -- `if newest is None or (ids and ids[0] >= newest): newest = ids[0]`
  let newest ←
    match kv.newest, ids with
    | none, [] => none            -- ids[0] raises IndexError
    | none, i :: _ => some i
    | some nw, [] => some nw
    | some nw, i :: _ => if i ≥ nw then some i else some nw
  -- `if oldest is None or (ids and ids[0] >= oldest):` — good page overlap
  let goodOverlap : Bool :=
    match kv.oldest, ids with
    | none, _ => true
    | some _ol, [] => false
    | some ol, i :: _ => i ≥ ol
  let (done, offset', oldest') ←
    if goodOverlap then do
      let (done, oldest') ←
        if is_end then some (true, kv.oldest)
        else
          match kv.last, ids.getLast? with
          | some _ls, none => none  -- ids[-1] raises IndexError
          | some ls, some ik =>
              if ik ≤ ls then some (true, kv.oldest)
              else
                match kv.oldest with
                | none => some (false, some ik)
                | some ol =>
                    if ik < ol then some (false, some ik)
                    else some (false, some ol)
          | none, lastId =>
              match kv.oldest with
              | none =>
                  match lastId with
                  | none => none    -- ids[-1] raises IndexError
                  | some ik => some (false, some ik)
              | some ol =>
                  match lastId with
                  | none => none    -- ids[-1] raises IndexError
                  | some ik =>
                      if ik < ol then some (false, some ik)
                      else some (false, some ol)
      some (done, offset + (ids.length : Int) - 1, oldest')
    else do
      -- `offset -= len(ids) // 2; if offset <= 0: offset = 0; oldest = None`
      let off1 := offset - ((ids.length : Int) / 2)
      if off1 ≤ 0 then some (false, (0 : Int), (none : Option Int))
      else some (false, off1, kv.oldest)
  if done then
    some (true,
      { last := some newest, offset := none, oldest := none, newest := none })
  else
    some (false,
      { last := kv.last, offset := some offset', oldest := oldest',
        newest := some newest })

/-! ## Raw-metafile cache: `TorrentEntry.raw_torrent_cached`,
`TorrentEntry._got_raw_torrent` and the `file_info` part of
`TorrentEntry.serialize` (btn/__init__.py lines 728-730, 787-795, 826-862).

For a single torrent entry the relevant state is: whether the raw metafile
is on disk at `<cache>/torrents/<id>.torrent` (the property
`raw_torrent_cached` is literally `os.path.exists` of that path), the
`file_info` rows stored for the id, and the `raw_torrent_cached` column of
the `torrent_entry` row. -/

structure RawCacheState where
  diskHasRaw : Bool
  fileInfoRows : List FileInfoRec
  rawTorrentCachedCol : Bool
  deriving DecidableEq, Repr

/-- One row of the `insert or ignore into file_info` batch: ignored when a
row with the same `(id, file_index)` key exists. -/
def insertFIRow (rows : List FileInfoRec) (f : FileInfoRec) :
    List FileInfoRec :=
  if rows.any (fun r => r.index == f.index) then rows else rows ++ [f]

/-- `insert or ignore into file_info ... executemany`. -/
def insertOrIgnoreFI (rows newRows : List FileInfoRec) : List FileInfoRec :=
  newRows.foldl insertFIRow rows

/-- The raw-cache effect of `TorrentEntry.serialize`: `file_info` is parsed
from the metafile only when the metafile is on disk and no `file_info` rows
exist yet (`if self.raw_torrent_cached and not any(self.file_info_cached)`);
the `raw_torrent_cached` column is written with the disk check's value; the
parsed rows are inserted with `insert or ignore` only when nonempty
(`if file_info:`). -/
def serializeRawParts (tobj : MInfo) (st : RawCacheState) : RawCacheState :=
  let file_info : Option (List FileInfoRec) :=
    if st.diskHasRaw ∧ st.fileInfoRows = [] then some (fromTobj tobj)
    else none
  let rows :=
    match file_info with
    | some l => if l ≠ [] then insertOrIgnoreFI st.fileInfoRows l
                else st.fileInfoRows
    | none => st.fileInfoRows
  { diskHasRaw := st.diskHasRaw, rawTorrentCachedCol := st.diskHasRaw,
    fileInfoRows := rows }

/-- `TorrentEntry._got_raw_torrent` followed by its `serialize()` call:
the raw bytes are written to disk only when `store_raw_torrent` is set. -/
def gotRawTorrent (store : Bool) (tobj : MInfo) (st : RawCacheState) :
    RawCacheState :=
  let st1 := if store then { st with diskHasRaw := true } else st
  serializeRawParts tobj st1

/-- The claimed invariant: the `raw_torrent_cached` column is set iff the
metafile is on disk and a complete (contiguous, `[0, size)`-covering) set of
`file_info` rows exists. -/
def rawCacheInvariant (size : Int) (st : RawCacheState) : Prop :=
  st.rawTorrentCachedCol = true ↔
    (st.diskHasRaw = true ∧ coversRange 0 size st.fileInfoRows)

instance decRawCacheInvariant (size : Int) (st : RawCacheState) :
    Decidable (rawCacheInvariant size st) := by
  unfold rawCacheInvariant
  infer_instance

/-- The metafile's own total payload length: the sum of the entry lengths
in multi-file mode, `info.length` in single-file mode. -/
def metafileTotal (ti : MInfo) : Int :=
  match ti.files with
  | some fs => sumLengths fs
  | none => ti.length

/-! ## `API.userInfoJson` keyword binding (btn/__init__.py lines 1600-1601
and 2175-2202).

`call_api` is declared as

```
def call_api(self, method, *params, leave_tokens=None,
             block_on_token=None, consume_token=None):
```

so its keyword parameters are exactly `leave_tokens`, `block_on_token` and
`consume_token`, and there is no `**kwargs` catch-all.  `userInfoJson`
invokes it as

```
return self.call_api(
    "userInfo", leave_tokes=leave_tokens,
    block_on_token=block_on_token, consume_token=consume_token)
```

Python binds keyword arguments before executing the callee's body; an
unexpected keyword raises `TypeError` at the call site, so the body (token
consumption, HTTP POST) never runs.  We model an invocation by the list of
keyword names it passes and the list of effects its body would perform. -/

/-- The externally visible effects `call_api`'s body performs, in order. -/
inductive ApiEffect where
  | consumeToken
  | httpPost
  deriving DecidableEq, Repr

/-- The keyword parameter names accepted by `call_api`. -/
def callApiKeywordParams : List String :=
  ["leave_tokens", "block_on_token", "consume_token"]

/-- Outcome of a Python call: `typeErrorOn = some kw` means binding failed
on the unexpected keyword `kw`, `TypeError` was raised and the body never
ran (so `effects = []` and nothing is returned). -/
structure PyCallOutcome where
  typeErrorOn : Option String
  effects : List ApiEffect
  deriving DecidableEq, Repr

/-- Invoking `call_api` with the given keyword-argument names: Python's
binding step rejects the first name that is not a declared keyword
parameter; only when all names bind does the body run. -/
def invokeCallApi (kwargNames : List String) (bodyEffects : List ApiEffect) :
    PyCallOutcome :=
  match kwargNames.find? (fun k => decide (k ∉ callApiKeywordParams)) with
  | some kw => { typeErrorOn := some kw, effects := [] }
  | none => { typeErrorOn := none, effects := bodyEffects }

/-- The keyword-argument names `userInfoJson` passes to `call_api`. -/
def userInfoJsonKwargs : List String :=
  ["leave_tokes", "block_on_token", "consume_token"]

/-- `API.userInfoJson` is a single `call_api` invocation with the keyword
names above; `bodyEffects` is whatever the body would do if it ran. -/
def userInfoJson (bodyEffects : List ApiEffect) : PyCallOutcome :=
  invokeCallApi userInfoJsonKwargs bodyEffects

/-! ## Theorems -/

theorem importantDiffers_eq_false_iff (te : TEFields) (r : TERow) :
    importantDiffers te r = false ↔ importantAgrees te r := by
  simp [importantDiffers, importantAgrees]
  tauto

theorem changestampRet_zero (s : Option Int) :
    changestampRet s 0 = s.getD 0 + 1 := by
  cases s <;> rfl

theorem changestampRet_succ (s : Option Int) (n : Nat) :
    changestampRet s (n + 1) = changestampRet s n + 1 := by
  induction n with
  | zero => cases s <;> rfl
  | succ k _ => rfl

theorem changestampRet_add (s : Option Int) (n : Nat) :
    changestampRet s n = changestampRet s 0 + n := by
  induction n with
  | zero => simp
  | succ k ih => rw [changestampRet_succ, ih]; push_cast; ring

theorem insertDesc_of_ge (x y : Int) (ys : List Int) (h : x ≥ y) :
    insertDesc x (y :: ys) = x :: y :: ys := by
  simp [insertDesc, h]

theorem sortDesc_eq_self (l : List Int) (h : l.Pairwise (· > ·)) :
    sortDesc l = l := by
  induction l with
  | nil => rfl
  | cons x t ih =>
      have hx := (List.pairwise_cons.1 h).1
      have ht := (List.pairwise_cons.1 h).2
      have hrec : sortDesc (x :: t) = insertDesc x (sortDesc t) := rfl
      rw [hrec, ih ht]
      cases t with
      | nil => rfl
      | cons y ys => exact insertDesc_of_ge x y ys (le_of_lt (hx y (by simp)))

theorem getLast_min_of_pairwise_gt (l : List Int) (hne : l ≠ [])
    (hp : l.Pairwise (· > ·)) : ∀ x ∈ l, l.getLast hne ≤ x := by
  induction l with
  | nil => cases hne rfl
  | cons a t ih =>
      intro x hx
      cases t with
      | nil =>
          have : x = a := by simpa using hx
          simp [this]
      | cons b t2 =>
          have hne2 : b :: t2 ≠ [] := by simp
          rw [List.getLast_cons hne2]
          rcases List.mem_cons.1 hx with rfl | hx2
          · have hmem := List.getLast_mem hne2
            have hlt := (List.pairwise_cons.1 hp).1 _ hmem
            exact le_of_lt hlt
          · exact ih hne2 (List.pairwise_cons.1 hp).2 x hx2

theorem le_head_of_pairwise_gt (i0 : Int) (rest : List Int)
    (hp : (i0 :: rest).Pairwise (· > ·)) : ∀ x ∈ i0 :: rest, x ≤ i0 := by
  intro x hx
  rcases List.mem_cons.1 hx with rfl | hx2
  · exact le_refl x
  · exact le_of_lt ((List.pairwise_cons.1 hp).1 x hx2)

/-- `markDeleted` on a live row whose id satisfies the predicate. -/
theorem markDeleted_of_true (cs : Int) (p : Int → Bool) (r : TERow)
    (hdel : r.deleted = false) (hp : p r.id = true) :
    markDeleted cs p r = { r with deleted := true, updated_at := cs } := by
  simp [markDeleted, hdel, hp]

/-- `markDeleted` skips rows whose id fails the predicate. -/
theorem markDeleted_of_pred_false (cs : Int) (p : Int → Bool) (r : TERow)
    (hp : p r.id = false) : markDeleted cs p r = r := by
  simp [markDeleted, hp]

/-- `markDeleted` skips rows that are already deleted. -/
theorem markDeleted_of_deleted (cs : Int) (p : Int → Bool) (r : TERow)
    (hdel : r.deleted = true) : markDeleted cs p r = r := by
  simp [markDeleted, hdel]

/-- **C2.** Contiguous-page reconciliation: for a response page at `offset`
with strictly descending id list `I` and claimed total `results`, after
`apply_contiguous_results_locked` runs, every previously non-deleted
`torrent_entry` row with id strictly between the page's smallest and
largest ids that is not in `I` is stored as deleted with `updated_at` equal
to the transaction's changestamp; when `offset + |I| >= results` (`is_end`),
additionally every previously non-deleted row with id below the page's
smallest id is stored as deleted; and rows whose id is in `I`, rows already
deleted, and rows with id above the page's largest id pass through
unchanged. -/
theorem apply_contiguous_deletion_rule (db : List TERow) (offset : Int)
    (I : List Int) (results cs : Int) (hne : I ≠ [])
    (hsort : I.Pairwise (· > ·)) :
    (∀ r ∈ db, r.deleted = false → I.getLast hne < r.id →
      r.id < I.head hne → r.id ∉ I →
      { r with deleted := true, updated_at := cs } ∈
        apply_contiguous_results_locked db offset I results cs) ∧
    (offset + (I.length : Int) ≥ results →
      ∀ r ∈ db, r.deleted = false → r.id < I.getLast hne →
      { r with deleted := true, updated_at := cs } ∈
        apply_contiguous_results_locked db offset I results cs) ∧
    (∀ r ∈ db, (r.id ∈ I ∨ r.deleted = true ∨ I.head hne < r.id) →
      r ∈ apply_contiguous_results_locked db offset I results cs) := by
  obtain ⟨i0, rest, rfl⟩ : ∃ i0 rest, I = i0 :: rest := by
    cases I with
    | nil => exact absurd rfl hne
    | cons a t => exact ⟨a, t, rfl⟩
  have hs : sortDesc (i0 :: rest) = i0 :: rest := sortDesc_eq_self _ hsort
  have hhead : (i0 :: rest).head hne = i0 := rfl
  have hik_le : (i0 :: rest).getLast hne ≤ i0 :=
    le_head_of_pairwise_gt i0 rest hsort _ (List.getLast_mem hne)
  have hunfold : apply_contiguous_results_locked db offset (i0 :: rest)
      results cs =
      (if (decide (offset + (((i0 :: rest).length : Nat) : Int) ≥ results)
          : Bool) then
        db.map (markDeleted cs
          (fun id => decide (id < (i0 :: rest).getLast hne)))
      else db).map
        (markDeleted cs
          (fun id => decide (id < i0 ∧ id > (i0 :: rest).getLast hne ∧
            id ∉ (i0 :: rest)))) := by
    simp only [apply_contiguous_results_locked, hs]
  rw [hhead]
  refine ⟨fun r hr hdel hik hi0 hnotin => ?_, fun hend r hr hdel hik => ?_,
    fun r hr hcase => ?_⟩
  · have hp2 : decide (r.id < i0 ∧ r.id > (i0 :: rest).getLast hne ∧
        r.id ∉ (i0 :: rest)) = true := by
      simp only [decide_eq_true_eq]
      exact ⟨hi0, hik, hnotin⟩
    have hp1 : decide (r.id < (i0 :: rest).getLast hne) = false := by
      simp only [decide_eq_false_iff_not]
      omega
    have hinner : markDeleted cs
        (fun id => decide (id < (i0 :: rest).getLast hne)) r = r :=
      markDeleted_of_pred_false _ _ _ hp1
    have houter : markDeleted cs
        (fun id => decide (id < i0 ∧ id > (i0 :: rest).getLast hne ∧
          id ∉ (i0 :: rest))) r =
        { r with deleted := true, updated_at := cs } :=
      markDeleted_of_true _ _ _ hdel hp2
    rw [hunfold]
    by_cases hend : offset + (((i0 :: rest).length : Nat) : Int) ≥ results
    · rw [if_pos (by simpa using hend), List.map_map]
      have heq : (markDeleted cs
            (fun id => decide (id < i0 ∧ id > (i0 :: rest).getLast hne ∧
              id ∉ (i0 :: rest))) ∘
          markDeleted cs
            (fun id => decide (id < (i0 :: rest).getLast hne))) r =
          { r with deleted := true, updated_at := cs } := by
        rw [Function.comp_apply, hinner, houter]
      rw [← heq]
      exact List.mem_map_of_mem _ hr
    · rw [if_neg (by simpa using hend), ← houter]
      exact List.mem_map_of_mem _ hr
  · have hp1 : decide (r.id < (i0 :: rest).getLast hne) = true := by
      simp only [decide_eq_true_eq]
      exact hik
    have hinner : markDeleted cs
        (fun id => decide (id < (i0 :: rest).getLast hne)) r =
        { r with deleted := true, updated_at := cs } :=
      markDeleted_of_true _ _ _ hdel hp1
    have houter : markDeleted cs
        (fun id => decide (id < i0 ∧ id > (i0 :: rest).getLast hne ∧
          id ∉ (i0 :: rest)))
        { r with deleted := true, updated_at := cs } =
        { r with deleted := true, updated_at := cs } :=
      markDeleted_of_deleted _ _ _ rfl
    rw [hunfold, if_pos (by simpa using hend), List.map_map]
    have heq : (markDeleted cs
          (fun id => decide (id < i0 ∧ id > (i0 :: rest).getLast hne ∧
            id ∉ (i0 :: rest))) ∘
        markDeleted cs
          (fun id => decide (id < (i0 :: rest).getLast hne))) r =
        { r with deleted := true, updated_at := cs } := by
      rw [Function.comp_apply, hinner, houter]
    rw [← heq]
    exact List.mem_map_of_mem _ hr
  · have hfix1 : markDeleted cs
        (fun id => decide (id < (i0 :: rest).getLast hne)) r = r := by
      rcases hcase with hmem | hdel | hbig
      · refine markDeleted_of_pred_false _ _ _ ?_
        simp only [decide_eq_false_iff_not]
        have := getLast_min_of_pairwise_gt _ hne hsort _ hmem
        omega
      · exact markDeleted_of_deleted _ _ _ hdel
      · refine markDeleted_of_pred_false _ _ _ ?_
        simp only [decide_eq_false_iff_not]
        omega
    have hfix2 : markDeleted cs
        (fun id => decide (id < i0 ∧ id > (i0 :: rest).getLast hne ∧
          id ∉ (i0 :: rest))) r = r := by
      rcases hcase with hmem | hdel | hbig
      · refine markDeleted_of_pred_false _ _ _ ?_
        simp only [decide_eq_false_iff_not]
        rintro ⟨h1, h2, h3⟩
        exact h3 hmem
      · exact markDeleted_of_deleted _ _ _ hdel
      · refine markDeleted_of_pred_false _ _ _ ?_
        simp only [decide_eq_false_iff_not]
        rintro ⟨h1, h2, h3⟩
        omega
    rw [hunfold]
    by_cases hend : offset + (((i0 :: rest).length : Nat) : Int) ≥ results
    · rw [if_pos (by simpa using hend), List.map_map]
      have heq : (markDeleted cs
            (fun id => decide (id < i0 ∧ id > (i0 :: rest).getLast hne ∧
              id ∉ (i0 :: rest))) ∘
          markDeleted cs
            (fun id => decide (id < (i0 :: rest).getLast hne))) r = r := by
        rw [Function.comp_apply, hfix1, hfix2]
      rw [← heq]
      exact List.mem_map_of_mem _ hr
    · rw [if_neg (by simpa using hend), ← hfix2]
      exact List.mem_map_of_mem _ hr

/-- Witness for C2: with page `I = [10, 7]` at offset 0 claiming 5 results
(not the end), the stored non-deleted row with id 8 is marked deleted with
the transaction changestamp 99. -/
theorem apply_contiguous_deletion_rule_witness :
    { (⟨8, "c", "c", 1, none, "o", "rn", "res", 1, "s", 0, 0, 0, 0, false, 3,
        false⟩ : TERow) with
      deleted := true, updated_at := 99 } ∈
      apply_contiguous_results_locked
        [⟨8, "c", "c", 1, none, "o", "rn", "res", 1, "s", 0, 0, 0, 0, false,
          3, false⟩] 0 [10, 7] 5 99 :=
  (apply_contiguous_deletion_rule
      [⟨8, "c", "c", 1, none, "o", "rn", "res", 1, "s", 0, 0, 0, 0, false,
        3, false⟩] 0 [10, 7] 5 99 (by simp) (by decide)).1
    _ (by simp) rfl (by decide) (by decide) (by decide)

/-- `Series._maybe_delete` only writes the `series` table. -/
theorem seriesMaybeDelete_groups (st : DBState) (ids : List Int) (cs : Int) :
    (seriesMaybeDelete st ids cs).groups = st.groups := by
  simp only [seriesMaybeDelete]
  split <;> rfl

/-- `Series._maybe_delete` only writes the `series` table. -/
theorem seriesMaybeDelete_torrents (st : DBState) (ids : List Int)
    (cs : Int) : (seriesMaybeDelete st ids cs).torrents = st.torrents := by
  simp only [seriesMaybeDelete]
  split <;> rfl

/-- Counterexample to C3: a database with one live torrent (id 5) under
live group 1 under live series 1 satisfies the cascade invariant; a
reconciliation page `[10]` claiming 1 total result is the end of the
catalog, so torrent 5 is marked deleted — but
`apply_contiguous_results_locked` updates only `torrent_entry`, leaving
group 1 non-deleted with no non-deleted torrent entry. -/
theorem applyContiguous_no_cascade_counterexample :
    cascadeInvariant
      { torrents := [⟨5, "c", "c", 1, none, "o", "rn", "res", 1, "s", 0, 0,
                      0, 0, false, 1, false⟩],
        groups := [⟨1, "Episode", "g", 1, 1, false⟩],
        series := [⟨1, none, none, none, none, none, none, none, 1,
                    false⟩] } ∧
    ¬ cascadeInvariant
      (applyContiguousFull
        { torrents := [⟨5, "c", "c", 1, none, "o", "rn", "res", 1, "s", 0, 0,
                        0, 0, false, 1, false⟩],
          groups := [⟨1, "Episode", "g", 1, 1, false⟩],
          series := [⟨1, none, none, none, none, none, none, none, 1,
                      false⟩] } 0 [10] 1 7) := by
  constructor
  · decide
  · decide

/-- **C3 (amended).** The reconciliation step performs no cascade:
`apply_contiguous_results_locked` writes only the `torrent_entry` table and
leaves the `group` and `series` tables unchanged, so a non-deleted group
may be left with no non-deleted torrent entry.  The cascade lives only in
`Group._maybe_delete` (invoked from `serialize` when a row's parent
changes): invoked on a set of candidate ids, it marks deleted (with the
transaction changestamp) exactly those candidate groups that are live and
have no live torrent entry, and leaves every other group row unchanged. -/
theorem reconciliation_no_cascade_maybe_delete (st : DBState) (offset : Int)
    (tids : List Int) (results cs : Int) (ids : List Int) (g : GRow)
    (hnodup : (st.groups.map (fun g2 => g2.id)).Nodup) :
    ((applyContiguousFull st offset tids results cs).groups = st.groups ∧
     (applyContiguousFull st offset tids results cs).series = st.series) ∧
    (g ∈ st.groups → g.id ∈ ids → g.deleted = false →
      (∀ te ∈ st.torrents, te.group_id = g.id → te.deleted = true) →
      { g with deleted := true, updated_at := cs } ∈
        (groupMaybeDelete st ids cs).groups) ∧
    (g ∈ st.groups →
      (g.deleted = true ∨ g.id ∉ ids ∨
        ∃ te ∈ st.torrents, te.group_id = g.id ∧ te.deleted = false) →
      g ∈ (groupMaybeDelete st ids cs).groups) := by
  refine ⟨⟨rfl, rfl⟩, fun hg hid hdel hdead => ?_, fun hg hcase => ?_⟩
  · have hq : groupQualifies st.torrents ids g = true := by
      simp only [groupQualifies, Bool.and_eq_true, decide_eq_true_eq,
        Bool.not_eq_true']
      refine ⟨⟨hid, hdel⟩, ?_⟩
      simp only [List.any_eq_false]
      intro te hte
      simp only [Bool.and_eq_true, beq_iff_eq, Bool.not_eq_true',
        not_and]
      intro hgid
      simp [hdead te hte hgid]
    have hgf : g ∈ st.groups.filter (groupQualifies st.torrents ids) :=
      List.mem_filter.2 ⟨hg, hq⟩
    have hgid : g.id ∈ (st.groups.filter
        (groupQualifies st.torrents ids)).map (fun g2 => g2.id) :=
      List.mem_map_of_mem _ hgf
    have hnotempty : ((st.groups.filter
        (groupQualifies st.torrents ids)).map
          (fun g2 => g2.id)).isEmpty = false := by
      rw [← Bool.not_eq_true, List.isEmpty_iff]
      intro hnil
      rw [hnil] at hgid
      simp at hgid
    simp only [groupMaybeDelete, hnotempty, Bool.false_eq_true, if_false,
      seriesMaybeDelete_groups]
    have hfun : (fun g2 : GRow =>
        if g2.id ∈ (st.groups.filter
            (groupQualifies st.torrents ids)).map (fun g3 => g3.id) then
          { g2 with deleted := true, updated_at := cs }
        else g2) g = { g with deleted := true, updated_at := cs } := by
      simp only [hgid, if_true]
    rw [← hfun]
    exact List.mem_map_of_mem _ hg
  · by_cases hempty : ((st.groups.filter
        (groupQualifies st.torrents ids)).map
          (fun g2 => g2.id)).isEmpty = true
    · simp only [groupMaybeDelete, hempty, if_true]
      exact hg
    · have hempty2 : ((st.groups.filter
          (groupQualifies st.torrents ids)).map
            (fun g2 => g2.id)).isEmpty = false := by
        simpa using hempty
      have hnotin : g.id ∉ (st.groups.filter
          (groupQualifies st.torrents ids)).map (fun g2 => g2.id) := by
        intro hmem
        obtain ⟨g2, hg2f, hg2id⟩ := List.mem_map.1 hmem
        have hg2 : g2 ∈ st.groups := (List.mem_filter.1 hg2f).1
        have hq2 : groupQualifies st.torrents ids g2 = true :=
          (List.mem_filter.1 hg2f).2
        have hgeq : g2 = g :=
          List.inj_on_of_nodup_map hnodup hg2 hg hg2id
        rw [hgeq] at hq2
        simp only [groupQualifies, Bool.and_eq_true, decide_eq_true_eq,
          Bool.not_eq_true'] at hq2
        rcases hcase with hdel | hnid | ⟨te, hte, htgid, htlive⟩
        · rw [hq2.1.2] at hdel
          exact absurd hdel (by simp)
        · exact hnid hq2.1.1
        · have := hq2.2
          simp only [List.any_eq_false] at this
          have hcon := this te hte
          simp [htgid, htlive] at hcon
      simp only [groupMaybeDelete, hempty2, Bool.false_eq_true, if_false,
        seriesMaybeDelete_groups]
      have hfun : (fun g2 : GRow =>
          if g2.id ∈ (st.groups.filter
              (groupQualifies st.torrents ids)).map (fun g3 => g3.id) then
            { g2 with deleted := true, updated_at := cs }
          else g2) g = g := by
        simp only [hnotin, if_false]
      rw [← hfun]
      exact List.mem_map_of_mem _ hg

/-- Witness for the amended C3: group 1, whose only torrent entry is
deleted, is marked deleted by `Group._maybe_delete` with changestamp 9. -/
theorem reconciliation_no_cascade_maybe_delete_witness :
    { (⟨1, "Episode", "g", 1, 1, false⟩ : GRow) with
      deleted := true, updated_at := 9 } ∈
      (groupMaybeDelete
        { torrents := [⟨5, "c", "c", 1, none, "o", "rn", "res", 1, "s", 0, 0,
                        0, 0, false, 1, true⟩],
          groups := [⟨1, "Episode", "g", 1, 1, false⟩],
          series := [] } [1] 9).groups :=
  (reconciliation_no_cascade_maybe_delete
      { torrents := [⟨5, "c", "c", 1, none, "o", "rn", "res", 1, "s", 0, 0,
                      0, 0, false, 1, true⟩],
        groups := [⟨1, "Episode", "g", 1, 1, false⟩],
        series := [] } 0 [] 0 9 [1] ⟨1, "Episode", "g", 1, 1, false⟩
      (by decide)).2.1
    (by decide) (by decide) rfl (by decide)

theorem sumLengths_cons (f : MFile) (fs : List MFile) :
    sumLengths (f :: fs) = f.length + sumLengths fs := by
  simp [sumLengths]

theorem filesFrom_length (name : List Nat) (fs : List MFile) :
    ∀ (off : Int) (idx : Nat), (filesFrom name off idx fs).length = fs.length := by
  induction fs with
  | nil => intro off idx; rfl
  | cons f fs ih => intro off idx; simp [filesFrom, ih]

theorem filesFrom_getElem (name : List Nat) (fs : List MFile) :
    ∀ (off : Int) (idx i : Nat) (hi : i < fs.length),
    (filesFrom name off idx fs)[i]? =
      some { index := idx + i,
             path := joinBytes (name :: (fs.get ⟨i, hi⟩).path),
             start := off + sumLengths (fs.take i),
             stop := off + sumLengths (fs.take i) +
               (fs.get ⟨i, hi⟩).length } := by
  induction fs with
  | nil => intro off idx i hi; exact absurd hi (by simp)
  | cons f fs ih =>
      intro off idx i hi
      match i with
      | 0 => simp [filesFrom, sumLengths]
      | j + 1 =>
          have hj : j < fs.length := by
            simpa using Nat.lt_of_succ_lt_succ hi
          have h := ih (off + f.length) (idx + 1) j hj
          simp only [filesFrom, List.getElem?_cons_succ, h, List.take_succ_cons,
            sumLengths_cons, List.get_cons_succ]
          congr 1
          have harith : off + f.length + sumLengths (fs.take j) =
              off + (f.length + sumLengths (fs.take j)) := by ring
          simp [harith]
          omega

theorem filesFrom_covers (name : List Nat) (fs : List MFile) :
    ∀ (off : Int) (idx : Nat),
    coversRange off (off + sumLengths fs) (filesFrom name off idx fs) := by
  induction fs with
  | nil => intro off idx; simp [filesFrom, coversRange, sumLengths]
  | cons f fs ih =>
      intro off idx
      refine ⟨rfl, ?_⟩
      have h := ih (off + f.length) (idx + 1)
      have harith : off + sumLengths (f :: fs) =
          off + f.length + sumLengths fs := by
        rw [sumLengths_cons]; ring
      rw [harith]
      exact h

/-- **C5.** `FileInfo._from_tobj` layout: in single-file mode exactly one
record `(index 0, path = info.name, start 0, stop = info.length)`; in
multi-file mode the `i`-th record has index `i`, path
`info.name ++ "/" ++ join(entry.path, "/")` as raw bytes, start equal to
the sum of the preceding entries' lengths and stop equal to start plus the
entry's length; and the records contiguously cover `[0, Σ lengths)` (first
start 0, each start = previous stop, last stop = total). -/
theorem fromTobj_layout (ti : MInfo) (fs : List MFile) (i : Nat) :
    (ti.files = none →
      fromTobj ti =
        [{ index := 0, path := ti.name, start := 0, stop := ti.length }]) ∧
    (ti.files = some fs →
      (fromTobj ti).length = fs.length ∧
      (∀ hi : i < fs.length,
        (fromTobj ti)[i]? =
          some { index := i,
                 path := joinBytes (ti.name :: (fs.get ⟨i, hi⟩).path),
                 start := sumLengths (fs.take i),
                 stop := sumLengths (fs.take i) +
                   (fs.get ⟨i, hi⟩).length }) ∧
      coversRange 0 (sumLengths fs) (fromTobj ti)) := by
  constructor
  · intro h
    simp [fromTobj, h]
  · intro h
    refine ⟨?_, fun hi => ?_, ?_⟩
    · simp [fromTobj, h, filesFrom_length]
    · have hg := filesFrom_getElem ti.name fs 0 0 i hi
      simp only [fromTobj, h]
      simpa using hg
    · have hc := filesFrom_covers ti.name fs 0 0
      simp only [fromTobj, h]
      simpa using hc

/-- Witness for C5: the spec's S4 metafile (`name = "x"`, entries
`[{length 100, path ["a"]}, {length 50, path ["b","c"]}]`) yields the
record `(1, "x/b/c", 100, 150)`. -/
theorem fromTobj_layout_witness :
    (fromTobj { name := [120],
                files := some [{ length := 100, path := [[97]] },
                               { length := 50, path := [[98], [99]] }],
                length := 0 })[1]? =
      some { index := 1, path := [120, 47, 98, 47, 99], start := 100,
             stop := 150 } := by
  have h := ((fromTobj_layout
      { name := [120],
        files := some [{ length := 100, path := [[97]] },
                       { length := 50, path := [[98], [99]] }],
        length := 0 }
      [{ length := 100, path := [[97]] },
       { length := 50, path := [[98], [99]] }]
      1).2 rfl).2.1 (by decide)
  rw [h]
  decide

theorem fill_length (period : ℚ) (lvl : Int) (qt : ℚ) (n : Nat) :
    (fill period lvl qt n).length = n := by
  simp only [fill, List.length_map, List.length_range]

theorem fill_get (period : ℚ) (lvl : Int) (qt : ℚ) (n i : Nat)
    (h : i < (fill period lvl qt n).length) :
    (fill period lvl qt n).get ⟨i, h⟩ =
      qt - period + period * (i + 1) / (n + 1) := by
  simp only [fill, List.get_eq_getElem, List.getElem_map, List.getElem_range]

/-- **C6.** On a JSON-RPC error object, `call_api` raises `APIError` with
the remote's message and code; exactly when the code is
`CODE_CALL_LIMIT_EXCEEDED` (−32002) it first rewrites the time-series
bucket with `api_token_bucket.set(0, query_time=call_time, fill)`, and for
any other code the bucket is untouched.  The `fill` closure, called with
`(level, query_time, n)`, returns `n` synthetic timestamps lying in
`[query_time − period, query_time]` and evenly spaced at `period/(n+1)`. -/
theorem callApi_call_limit_handling (message : String) (code : Int)
    (call_time period qt : ℚ) (lvl : Int) (n i : Nat) :
    (callApiOnError message code call_time).raised = (message, code) ∧
    ((callApiOnError message code call_time).bucketSet =
        some (0, call_time) ↔ code = CODE_CALL_LIMIT_EXCEEDED) ∧
    (code ≠ CODE_CALL_LIMIT_EXCEEDED →
      (callApiOnError message code call_time).bucketSet = none) ∧
    (fill period lvl qt n).length = n ∧
    (0 < period → ∀ t ∈ fill period lvl qt n, qt - period ≤ t ∧ t ≤ qt) ∧
    (∀ h1 : i + 1 < n,
      (fill period lvl qt n).get ⟨i + 1, by rw [fill_length]; exact h1⟩ -
        (fill period lvl qt n).get ⟨i, by rw [fill_length]; omega⟩ =
      period / (n + 1)) := by
  refine ⟨rfl, ?_, fun h => ?_, fill_length period lvl qt n,
    fun hp t ht => ?_, fun h1 => ?_⟩
  · by_cases hc : code = CODE_CALL_LIMIT_EXCEEDED <;>
      simp [callApiOnError, hc]
  · simp [callApiOnError, h]
  · simp only [fill, List.mem_map, List.mem_range] at ht
    obtain ⟨j, hj, rfl⟩ := ht
    have hn1 : (0 : ℚ) < (n : ℚ) + 1 := by positivity
    have hj1 : (0 : ℚ) ≤ (j : ℚ) + 1 := by positivity
    have hjn : (j : ℚ) + 1 ≤ (n : ℚ) + 1 := by
      have : (j : ℚ) < (n : ℚ) := by exact_mod_cast hj
      linarith
    constructor
    · have hnum : (0 : ℚ) ≤ period * ((j : ℚ) + 1) / ((n : ℚ) + 1) :=
        div_nonneg (mul_nonneg (le_of_lt hp) hj1) (le_of_lt hn1)
      linarith
    · have : period * ((j : ℚ) + 1) / ((n : ℚ) + 1) ≤ period := by
        rw [div_le_iff₀ hn1]
        have := mul_le_mul_of_nonneg_left hjn (le_of_lt hp)
        linarith
      linarith
  · rw [fill_get, fill_get]
    have hn1 : ((n : ℚ) + 1) ≠ 0 := by positivity
    have hcast : (((i + 1 : Nat) : ℚ)) = (i : ℚ) + 1 := by push_cast; ring
    rw [hcast]
    field_simp
    ring

/-- Witness for C6: the bucket rewrite at code −32002, plus bounds and
spacing of the three synthetic timestamps of `fill 100 _ 200 3`. -/
theorem callApi_call_limit_handling_witness :
    (callApiOnError "m" (-32002) 5).bucketSet = some (0, 5) ∧
    ((200 : ℚ) - 100 ≤
        (fill 100 0 200 3).get ⟨0, by rw [fill_length]; omega⟩ ∧
      (fill 100 0 200 3).get ⟨0, by rw [fill_length]; omega⟩ ≤ 200) ∧
    (fill 100 0 200 3).get ⟨0 + 1, by rw [fill_length]; omega⟩ -
      (fill 100 0 200 3).get ⟨0, by rw [fill_length]; omega⟩ =
      100 / (((3 : Nat) : ℚ) + 1) :=
  ⟨((callApi_call_limit_handling "m" (-32002) 5 100 200 0 3 0).2.1).2 rfl,
   (callApi_call_limit_handling "m" (-32002) 5 100 200 0 3 0).2.2.2.2.1
      (by norm_num) _ (List.get_mem _ _ _),
   (callApi_call_limit_handling "m" (-32002) 5 100 200 0 3 0).2.2.2.2.2
      (by omega)⟩

/-- **C10.** `API.userInfoJson` forwards the misspelled keyword
`leave_tokes`, which `call_api` does not declare: for every combination of
argument values, Python's keyword binding fails with `TypeError` before
`call_api`'s body runs, so no token is consumed, no HTTP request is issued,
and the call (hence also `API.userInfo`, which invokes it) never returns
normally — the caller's `leave_tokens` value is never honored. -/
theorem userInfoJson_always_raises_type_error
    (bodyEffects : List ApiEffect) :
    userInfoJson bodyEffects =
      { typeErrorOn := some "leave_tokes", effects := [] } := by
  rfl

/-- **C4.** `API.get_changestamp` reads the persisted counter, increments
it by exactly one, writes it back and returns the new value; consecutive
calls against one database return values that each exceed the previous
return by exactly one, the first call on an absent counter row returns 1,
and the sequence of returned values is strictly increasing. -/
theorem get_changestamp_strictly_increasing (s : Option Int) (n m : Nat) :
    (get_changestamp s).1 = s.getD 0 + 1 ∧
    (get_changestamp s).2 = some ((get_changestamp s).1) ∧
    changestampRet none 0 = 1 ∧
    changestampRet s (n + 1) = changestampRet s n + 1 ∧
    (m < n → changestampRet s m < changestampRet s n) := by
  refine ⟨by cases s <;> rfl, by cases s <;> rfl, rfl,
    changestampRet_succ s n, fun h => ?_⟩
  rw [changestampRet_add s n, changestampRet_add s m]
  have : (m : Int) < (n : Int) := by exact_mod_cast h
  omega

/-- Witness for C4 at a concrete database state. -/
theorem get_changestamp_strictly_increasing_witness :
    (1 : Nat) < 2 ∧ changestampRet (some 5) 1 < changestampRet (some 5) 2 :=
  ⟨by decide,
    (get_changestamp_strictly_increasing (some 5) 2 1).2.2.2.2 (by decide)⟩

/-- **C7.** The backfill scraper's cursor update: the new
`scrape_next_offset` is `offset + BLOCK_SIZE - 1`, except that it wraps to
`0` exactly when `scrape_last_results` is stored, non-zero and smaller than
`offset + BLOCK_SIZE - 1`; and the `BLOCK_SIZE`-row page starting at the
old offset and the one starting at the new offset overlap on exactly one
position. -/
theorem nextScrapeOffset_stride (offset results : Option Int) (r : Int) :
    (results = none ∨ results = some 0 ∨
      (results = some r ∧ orZero offset + BLOCK_SIZE - 1 ≤ r) →
      nextScrapeOffset offset results = orZero offset + BLOCK_SIZE - 1) ∧
    (results = some r → r ≠ 0 → orZero offset + BLOCK_SIZE - 1 > r →
      nextScrapeOffset offset results = 0) ∧
    Set.Icc (orZero offset) (orZero offset + BLOCK_SIZE - 1) ∩
      Set.Icc (nextScrapeOffset offset none)
        (nextScrapeOffset offset none + (BLOCK_SIZE - 1)) =
      {nextScrapeOffset offset none} := by
  have hB : BLOCK_SIZE = 1000 := rfl
  refine ⟨?_, ?_, ?_⟩
  · rintro (h | h | ⟨h, hle⟩) <;> subst h
    · rfl
    · simp [nextScrapeOffset]
    · simp only [nextScrapeOffset]
      rw [if_neg]
      omega
  · intro h hne hgt
    subst h
    simp only [nextScrapeOffset]
    rw [if_pos ⟨hne, hgt⟩]
  · have hnone : nextScrapeOffset offset none =
        orZero offset + BLOCK_SIZE - 1 := rfl
    rw [hnone]
    exact Set.Icc_inter_Icc_eq_singleton (by rw [hB]; omega)
      (by rw [hB]; omega)

/-- Witness for C7: wrap-around case at offset 10 with 500 stored results,
and the no-wrap case with no stored result count. -/
theorem nextScrapeOffset_stride_witness :
    nextScrapeOffset (some 10) (some 500) = 0 ∧
    nextScrapeOffset (some 10) none = 1009 :=
  ⟨(nextScrapeOffset_stride (some 10) (some 500) 500).2.1 rfl (by decide)
      (by decide),
    (nextScrapeOffset_stride (some 10) none 0).1 (Or.inl rfl)⟩

/-- **C1.** Cache upsert is idempotent with counter-tolerant updates: for a
stored `torrent_entry` row, serializing field values identical to the row
leaves the row (in particular `updated_at`) unchanged; if only the counters
`seeders`, `leechers`, `snatched` differ, exactly the counters are updated
and `updated_at` is unchanged; and if any non-counter field differs, the
columns are updated together with the counters and `updated_at` becomes the
supplied fresh changestamp. -/
theorem serializeTE_upsert (te : TEFields) (id cs : Int) (r : TERow)
    (stamp : Int) :
    serializeTE te id cs (some (rowOf te r.id stamp)) = rowOf te r.id stamp ∧
    (importantAgrees te r → serializeTE te id cs (some r) =
      { r with snatched := te.snatched, seeders := te.seeders,
               leechers := te.leechers }) ∧
    (importantDiffers te r = true →
      serializeTE te id cs (some r) = rowOf te r.id cs) := by
  refine ⟨?_, fun h => ?_, fun h => ?_⟩
  · have hd : importantDiffers te (rowOf te r.id stamp) = false := by
      simp [importantDiffers, rowOf]
    simp only [serializeTE, hd]
    simp [rowOf]
  · have hd : importantDiffers te r = false :=
      (importantDiffers_eq_false_iff te r).2 h
    simp [serializeTE, hd]
  · simp [serializeTE, h, rowOf]

/-- Witness for C1: a concrete row whose counters differ keeps its
change-stamp; a concrete row whose codec differs gets the fresh one. -/
theorem serializeTE_upsert_witness :
    serializeTE
        ⟨"H.264", "MKV", 4, some "AB", "P2P", "rel", "1080p", 100, "WEB-DL",
          7, false, 3, 2, 1⟩ 9 55
        (some ⟨9, "H.264", "MKV", 4, some "AB", "P2P", "rel", "1080p", 100,
          "WEB-DL", 7, 0, 0, 0, false, 41, false⟩) =
      ⟨9, "H.264", "MKV", 4, some "AB", "P2P", "rel", "1080p", 100, "WEB-DL",
        7, 3, 2, 1, false, 41, false⟩ ∧
    serializeTE
        ⟨"XviD", "MKV", 4, some "AB", "P2P", "rel", "1080p", 100, "WEB-DL",
          7, false, 3, 2, 1⟩ 9 55
        (some ⟨9, "H.264", "MKV", 4, some "AB", "P2P", "rel", "1080p", 100,
          "WEB-DL", 7, 0, 0, 0, false, 41, false⟩) =
      ⟨9, "XviD", "MKV", 4, some "AB", "P2P", "rel", "1080p", 100, "WEB-DL",
        7, 3, 2, 1, false, 55, false⟩ :=
  ⟨(serializeTE_upsert
      ⟨"H.264", "MKV", 4, some "AB", "P2P", "rel", "1080p", 100, "WEB-DL",
        7, false, 3, 2, 1⟩ 9 55
      ⟨9, "H.264", "MKV", 4, some "AB", "P2P", "rel", "1080p", 100, "WEB-DL",
        7, 0, 0, 0, false, 41, false⟩ 41).2.1 (by decide),
   (serializeTE_upsert
      ⟨"XviD", "MKV", 4, some "AB", "P2P", "rel", "1080p", 100, "WEB-DL",
        7, false, 3, 2, 1⟩ 9 55
      ⟨9, "H.264", "MKV", 4, some "AB", "P2P", "rel", "1080p", 100, "WEB-DL",
        7, 0, 0, 0, false, 41, false⟩ 41).2.2 (by decide)⟩

/-- Counterexample to C8: an active session with `oldest = 50` and offset
100 receives a 10-id page topping out at 40 (overlap failure); the code
sets the offset to `100 - 10 // 2 = 95`, not to half its prior value 50,
and `oldest` is kept. -/
theorem tip_backoff_counterexample :
    update_scrape_results_locked 100 [40, 39, 38, 37, 36, 35, 34, 33, 32, 31]
        false
        { last := none, offset := some 100, oldest := some 50,
          newest := some 100 } =
      some (false,
        { last := none, offset := some 95, oldest := some 50,
          newest := some 100 }) ∧
    (95 : Int) ≠ 100 / 2 := by
  constructor
  · rfl
  · decide

/-- **C8 (amended).** On a failed overlap (nonempty page whose top id is
strictly below the stored `oldest`), `update_scrape_results_locked`
decrements the offset by `len(ids) // 2` (half the page length, not half
the offset), clamping at zero, and clears `oldest` exactly when the new
offset is 0; the pass is not marked done and `tip_last_scraped` is kept. -/
theorem tip_backoff_amended (offset : Int) (ids : List Int) (is_end : Bool)
    (kv : TipKV) (ol nw i0 : Int) (rest : List Int)
    (hol : kv.oldest = some ol) (hnw : kv.newest = some nw)
    (hids : ids = i0 :: rest) (hlt : i0 < ol) :
    update_scrape_results_locked offset ids is_end kv =
      some (false,
        { last := kv.last,
          offset := some (if offset - ((ids.length : Int) / 2) ≤ 0 then 0
            else offset - ((ids.length : Int) / 2)),
          oldest := if offset - ((ids.length : Int) / 2) ≤ 0 then none
            else some ol,
          newest := some (if i0 ≥ nw then i0 else nw) }) ∧
    ((if offset - ((ids.length : Int) / 2) ≤ 0 then (none : Option Int)
        else some ol) = none ↔
      (if offset - ((ids.length : Int) / 2) ≤ 0 then (0 : Int)
        else offset - ((ids.length : Int) / 2)) = 0) := by
  subst hids
  have hGe : ¬ (i0 ≥ ol) := by omega
  constructor
  · by_cases hge : i0 ≥ nw
    · simp [update_scrape_results_locked, hol, hnw, hge, hGe]
      split
      · rfl
      · rfl
    · simp [update_scrape_results_locked, hol, hnw, hge, hGe]
      split
      · rfl
      · rfl
  · by_cases hc : offset - (((i0 :: rest).length : Int) / 2) ≤ 0
    · rw [if_pos hc, if_pos hc]
      simp
    · rw [if_neg hc, if_neg hc]
      constructor
      · intro h
        exact absurd h (by simp)
      · intro h
        exact absurd (le_of_eq h) hc

/-- Witness for the amended C8: offset 4, half the 10-id page is 5, so the
offset clamps to 0 and `oldest` is cleared. -/
theorem tip_backoff_amended_witness :
    update_scrape_results_locked 4 [40, 39, 38, 37, 36, 35, 34, 33, 32, 31]
        false
        { last := none, offset := some 4, oldest := some 50,
          newest := some 100 } =
      some (false,
        { last := none, offset := some 0, oldest := none,
          newest := some 100 }) := by
  have h := (tip_backoff_amended 4
      [40, 39, 38, 37, 36, 35, 34, 33, 32, 31] false
      { last := none, offset := some 4, oldest := some 50,
        newest := some 100 } 50 100 40 [39, 38, 37, 36, 35, 34, 33, 32, 31]
      rfl rfl rfl (by decide)).1
  simpa using h

/-- A single `insert or ignore` batch into an accumulator carrying no
conflicting `(id, file_index)` key, from a batch with pairwise distinct
indices, appends every row. -/
theorem insertOrIgnoreFI_append (l : List FileInfoRec) :
    ∀ acc : List FileInfoRec,
    (∀ f ∈ l, ∀ r ∈ acc, ¬ r.index = f.index) →
    ((l.map (fun f => f.index)).Nodup) →
    insertOrIgnoreFI acc l = acc ++ l := by
  induction l with
  | nil => intro acc h hn; simp [insertOrIgnoreFI]
  | cons f fs ih =>
      intro acc h hn
      have hstep : insertFIRow acc f = acc ++ [f] := by
        simp only [insertFIRow]
        rw [if_neg]
        simp only [List.any_eq_true, not_exists]
        intro r
        simp only [beq_iff_eq, not_and]
        intro hr
        intro heq
        exact h f (by simp) r hr heq
      have hrec : insertOrIgnoreFI acc (f :: fs) =
          insertOrIgnoreFI (insertFIRow acc f) fs := rfl
      rw [hrec, hstep, ih (acc ++ [f]) ?_ (List.nodup_cons.1 hn).2]
      · simp
      · intro g hg r hr
        rcases List.mem_append.1 hr with hr1 | hr2
        · exact h g (by simp [hg]) r hr1
        · have hrf : r = f := by simpa using hr2
          subst hrf
          intro heq
          have hfnot := (List.nodup_cons.1 hn).1
          refine hfnot ?_
          have hbeta : (fun f2 : FileInfoRec => f2.index) r = g.index := heq
          rw [hbeta]
          exact List.mem_map_of_mem (fun f2 => f2.index) hg

theorem filesFrom_indices (name : List Nat) (fs : List MFile) :
    ∀ (off : Int) (idx : Nat),
    (filesFrom name off idx fs).map (fun f => f.index) =
      List.range' idx fs.length := by
  induction fs with
  | nil => intro off idx; rfl
  | cons f fs ih =>
      intro off idx
      have := ih (off + f.length) (idx + 1)
      simp only [filesFrom, List.map_cons, this, List.length_cons]
      rw [List.range'_succ idx fs.length 1]

theorem fromTobj_indices_nodup (ti : MInfo) :
    ((fromTobj ti).map (fun f => f.index)).Nodup := by
  rcases hf : ti.files with _ | fs
  · simp [fromTobj, hf]
  · simp only [fromTobj, hf]
    rw [filesFrom_indices ti.name fs 0 0]
    exact List.nodup_range' 0 fs.length

theorem insertOrIgnoreFI_nil (ti : MInfo) :
    insertOrIgnoreFI [] (fromTobj ti) = fromTobj ti := by
  rw [insertOrIgnoreFI_append (fromTobj ti) [] (by simp)
    (fromTobj_indices_nodup ti)]
  simp

/-- The codec's records always contiguously cover `[0, metafileTotal)`. -/
theorem fromTobj_covers (ti : MInfo) :
    coversRange 0 (metafileTotal ti) (fromTobj ti) := by
  rcases hf : ti.files with _ | fs
  · simp [fromTobj, metafileTotal, hf, coversRange]
  · simp only [fromTobj, metafileTotal, hf]
    have h := filesFrom_covers ti.name fs 0 0
    simpa using h

/-- Counterexample to C9: fetching and storing (with `store_raw_torrent`
enabled) a single-file metafile of length 5 for a torrent entry whose
remote-reported `size` is 7 yields `raw_torrent_cached = 1` and the file on
disk, but the `file_info` rows cover `[0, 5)`, not `[0, 7)`: the claimed
equivalence fails because nothing checks the metafile against the stored
size. -/
theorem raw_cache_invariant_counterexample :
    ¬ rawCacheInvariant 7
      (gotRawTorrent true { name := [97], files := none, length := 5 }
        { diskHasRaw := false, fileInfoRows := [],
          rawTorrentCachedCol := false }) := by
  decide

/-- **C9 (amended).** After `_got_raw_torrent` followed by `serialize`, the
stored `raw_torrent_cached` column equals the on-disk presence of the
metafile; with `store_raw_torrent` enabled the file is on disk, and when no
`file_info` rows existed the inserted rows are exactly the codec's records,
contiguously covering `[0, metafileTotal)`; the claimed equivalence
(covering `[0, size)` for the stored `size`) is established exactly when
the stored size equals the metafile's own total length. -/
theorem gotRawTorrent_establishes (store : Bool) (tobj : MInfo)
    (st : RawCacheState) (size : Int) :
    ((gotRawTorrent store tobj st).rawTorrentCachedCol =
      (gotRawTorrent store tobj st).diskHasRaw) ∧
    (store = true → (gotRawTorrent store tobj st).diskHasRaw = true) ∧
    (store = true → st.fileInfoRows = [] →
      (gotRawTorrent store tobj st).fileInfoRows = fromTobj tobj ∧
      coversRange 0 (metafileTotal tobj)
        (gotRawTorrent store tobj st).fileInfoRows) ∧
    (store = true → st.fileInfoRows = [] → size = metafileTotal tobj →
      rawCacheInvariant size (gotRawTorrent store tobj st)) := by
  have hrows : store = true → st.fileInfoRows = [] →
      (gotRawTorrent store tobj st).fileInfoRows = fromTobj tobj := by
    intro hstore hfi
    subst hstore
    by_cases hempty : fromTobj tobj = []
    · simp [gotRawTorrent, serializeRawParts, hfi, hempty]
    · simp [gotRawTorrent, serializeRawParts, hfi, hempty,
        insertOrIgnoreFI_nil]
  refine ⟨?_, fun hstore => ?_, fun hstore hfi => ?_,
    fun hstore hfi hsize => ?_⟩
  · cases store <;> rfl
  · subst hstore; rfl
  · refine ⟨hrows hstore hfi, ?_⟩
    rw [hrows hstore hfi]
    exact fromTobj_covers tobj
  · have hcol : (gotRawTorrent store tobj st).rawTorrentCachedCol = true := by
      subst hstore; rfl
    have hdisk : (gotRawTorrent store tobj st).diskHasRaw = true := by
      subst hstore; rfl
    constructor
    · intro _
      refine ⟨hdisk, ?_⟩
      rw [hrows hstore hfi, hsize]
      exact fromTobj_covers tobj
    · intro _
      exact hcol

/-- Witness for the amended C9: storing a single-file metafile of length 5
for an entry of size 5 establishes the invariant. -/
theorem gotRawTorrent_establishes_witness :
    rawCacheInvariant 5
      (gotRawTorrent true { name := [97], files := none, length := 5 }
        { diskHasRaw := false, fileInfoRows := [],
          rawTorrentCachedCol := false }) :=
  (gotRawTorrent_establishes true { name := [97], files := none, length := 5 }
      { diskHasRaw := false, fileInfoRows := [],
        rawTorrentCachedCol := false } 5).2.2.2 rfl rfl (by decide)

end Btn
